import Mathlib

/-!
Verification development for `src/halo2_params.rs` of axiom_halo2_backend.

The Rust module converts an Aztec powers-of-tau ceremony transcript into a
`ParamsKZG<Bn256>` parameter object.  We shallowly embed the module:

* bytes are `Nat` (each `< 256` where it matters), buffers are `List Nat`;
* bn254 base-field elements are `Nat` below the modulus `q`; `Fq2` is a pair;
* Rust panics (`unwrap`, out-of-bounds indexing, failed `assert!`) are
  modelled as `none` / `Outcome.panic`;
* machine integers are `Nat` with explicit `% 2^w` where overflow matters;
  `u32::next_power_of_two` is modelled with release-mode wrapping semantics
  (in debug Rust panics on the same inputs, so overflowing inputs fail to
  produce a rounded count under either semantics);
* external collaborators (`get_aztec_crs`, `g_to_lagrange`) are parameters
  of the pipeline; external library leaf functions (`Fq::from_bytes`,
  `from_xy`, `write_raw`, `ParamsKZG::read_custom`) are modelled from their
  documented contracts (canonical little-endian field decoding, curve
  equation check, fixed-width raw point encoding).
-/

namespace AztecCrs

/-- bn254 (BN256) base-field modulus, the order of `Fq`. -/
def q : Nat := 21888242871839275222246405745257275088696311157297823662689037894645226208583

/-- Fixed-width little-endian byte encoding of a natural number. -/
def natToLE : Nat → Nat → List Nat
  | 0, _ => []
  | w + 1, n => n % 256 :: natToLE w (n / 256)

/-- Value of a little-endian byte list. -/
def leBytesToNat : List Nat → Nat
  | [] => 0
  | b :: rest => b + 256 * leBytesToNat rest

/-- Fuel-driven worker for `chunks` (structural recursion so that the kernel
can evaluate it on concrete inputs). -/
def chunksF : Nat → Nat → List Nat → List (List Nat)
  | 0, _, _ => []
  | _, _, [] => []
  | fuel + 1, k, l => l.take k :: chunksF fuel k (l.drop k)

/-- Rust `slice::chunks(k)`: splits a buffer into consecutive blocks of `k`
bytes, the last block possibly shorter. -/
def chunks (k : Nat) (l : List Nat) : List (List Nat) :=
  chunksF l.length k l

/-- The per-limb byte reversal performed by `to_g1_point` / `to_g2_point`:
`point.chunks(8).map(|limb| limb.reversed()).flatten()`. -/
def perLimbRev (l : List Nat) : List Nat :=
  ((chunks 8 l).map List.reverse).flatten

theorem natToLE_length (w n : Nat) : (natToLE w n).length = w := by
  induction w generalizing n with
  | zero => rfl
  | succ w ih => simp [natToLE, ih]

theorem leBytesToNat_natToLE (w n : Nat) (h : n < 256 ^ w) :
    leBytesToNat (natToLE w n) = n := by
  induction w generalizing n with
  | zero => simp [natToLE, leBytesToNat]; omega
  | succ w ih =>
    have hdiv : n / 256 < 256 ^ w := by
      rw [Nat.div_lt_iff_lt_mul (by norm_num)]
      calc n < 256 ^ (w + 1) := h
        _ = 256 ^ w * 256 := by ring
    simp [natToLE, leBytesToNat, ih _ hdiv]
    omega

theorem chunksF_congr (fuel fuel' k : Nat) (hk : 0 < k) :
    ∀ l : List Nat, l.length ≤ fuel → l.length ≤ fuel' →
      chunksF fuel k l = chunksF fuel' k l := by
  induction fuel generalizing fuel' with
  | zero =>
    intro l h _
    have : l = [] := List.eq_nil_of_length_eq_zero (Nat.le_zero.mp h)
    subst this
    cases fuel' <;> rfl
  | succ fuel ih =>
    intro l h h'
    cases l with
    | nil => cases fuel' <;> rfl
    | cons a t =>
      cases fuel' with
      | zero => simp at h'
      | succ fuel' =>
        simp only [chunksF]
        congr 1
        apply ih
        · simp only [List.length_drop, List.length_cons]
          simp at h; omega
        · simp only [List.length_drop, List.length_cons]
          simp at h'; omega

theorem chunks_nil (k : Nat) : chunks k [] = [] := rfl

theorem chunks_cons (k : Nat) (hk : 0 < k) (l : List Nat) (hl : l ≠ []) :
    chunks k l = l.take k :: chunks k (l.drop k) := by
  unfold chunks
  cases l with
  | nil => exact absurd rfl hl
  | cons a t =>
    simp only [List.length_cons, chunksF]
    congr 1
    apply chunksF_congr _ _ _ hk
    · simp only [List.length_drop, List.length_cons]; omega
    · simp only [List.length_drop, List.length_cons]; omega

theorem chunks_append (k : Nat) (hk : 0 < k) (a b : List Nat) (ha : a.length = k) :
    chunks k (a ++ b) = a :: chunks k b := by
  have hane : a ≠ [] := by
    intro h; subst h; simp at ha; omega
  have habne : a ++ b ≠ [] := by
    cases a with
    | nil => exact absurd rfl hane
    | cons x t => simp
  rw [chunks_cons k hk _ habne]
  congr 1
  · rw [← ha, List.take_left]
  · rw [← ha, List.drop_left]

theorem chunks_flatten (k : Nat) (hk : 0 < k) (L : List (List Nat))
    (h : ∀ c ∈ L, c.length = k) : chunks k L.flatten = L := by
  induction L with
  | nil => simp [chunks_nil]
  | cons c rest ih =>
    have hc : c.length = k := h c (by simp)
    rw [List.flatten_cons, chunks_append k hk c rest.flatten hc]
    congr 1
    exact ih (fun d hd => h d (by simp [hd]))

theorem perLimbRev_nil : perLimbRev [] = [] := rfl

theorem perLimbRev_step (l : List Nat) (hl : l ≠ []) :
    perLimbRev l = (l.take 8).reverse ++ perLimbRev (l.drop 8) := by
  unfold perLimbRev
  rw [chunks_cons 8 (by omega) l hl]
  simp

theorem perLimbRev_length (l : List Nat) : (perLimbRev l).length = l.length := by
  have H : ∀ n : Nat, ∀ l : List Nat, l.length ≤ n → (perLimbRev l).length = l.length := by
    intro n
    induction n with
    | zero =>
      intro l h
      have : l = [] := List.eq_nil_of_length_eq_zero (Nat.le_zero.mp h)
      subst this; rfl
    | succ n ih =>
      intro l h
      cases l with
      | nil => rfl
      | cons a t =>
        rw [perLimbRev_step _ (by simp)]
        have hdrop : ((a :: t).drop 8).length ≤ n := by
          simp only [List.length_drop, List.length_cons]
          simp at h; omega
        simp only [List.length_append, List.length_reverse, List.length_take,
          ih _ hdrop, List.length_drop]
        simp only [List.length_cons]
        omega
  exact H l.length l le_rfl

theorem perLimbRev_small (l : List Nat) (h : l.length ≤ 8) :
    perLimbRev l = l.reverse := by
  cases l with
  | nil => rfl
  | cons a t =>
    rw [perLimbRev_step _ (by simp)]
    have h8 : (a :: t).drop 8 = [] := by
      apply List.eq_nil_of_length_eq_zero
      simp only [List.length_drop]; omega
    rw [List.take_of_length_le h, h8, perLimbRev_nil, List.append_nil]

theorem perLimbRev_append8 (a b : List Nat) (ha : a.length = 8) :
    perLimbRev (a ++ b) = a.reverse ++ perLimbRev b := by
  have hne : a ++ b ≠ [] := by
    cases a with
    | nil => simp at ha
    | cons x t => simp
  rw [perLimbRev_step _ hne]
  congr 1
  · rw [← ha, List.take_left]
  · rw [← ha, List.drop_left]

theorem perLimbRev_invol (l : List Nat) : perLimbRev (perLimbRev l) = l := by
  have H : ∀ n : Nat, ∀ l : List Nat, l.length ≤ n → perLimbRev (perLimbRev l) = l := by
    intro n
    induction n with
    | zero =>
      intro l h
      have : l = [] := List.eq_nil_of_length_eq_zero (Nat.le_zero.mp h)
      subst this; rfl
    | succ n ih =>
      intro l h
      by_cases h8 : l.length ≤ 8
      · rw [perLimbRev_small l h8, perLimbRev_small l.reverse (by simpa using h8),
          List.reverse_reverse]
      · have hne : l ≠ [] := by
          intro hnil; subst hnil; simp at h8
        rw [perLimbRev_step l hne]
        have htake : ((l.take 8).reverse).length = 8 := by
          simp only [List.length_reverse, List.length_take]
          omega
        rw [perLimbRev_append8 _ _ htake, List.reverse_reverse]
        have hdrop : (l.drop 8).length ≤ n := by
          simp only [List.length_drop]; omega
        rw [ih _ hdrop]
        have h8le : 8 ≤ l.length := by omega
        exact List.take_append_drop 8 l
  exact H l.length l le_rfl

/-- Rust array store `a[i] = v`: panics (`none`) when `i` is out of bounds. -/
def setArr (a : List Nat) (i v : Nat) : Option (List Nat) :=
  if i < a.length then some (a.set i v) else none

/-- The coordinate-splitting loop of `to_g1_point` / `to_g2_point`
(`w = 32` resp. `w = 64`):
`for i in 0..le_bytes.len() { if i < w { first[i] = le[i] } else { second[i-w] = le[i] } }`,
traversing `le` with its index.  `none` models the panic of an
out-of-bounds array store. -/
def fillLoop (w : Nat) : List Nat → Nat → List Nat × List Nat → Option (List Nat × List Nat)
  | [], _, st => some st
  | v :: rest, i, (f, s) =>
    if i < w then
      match setArr f i v with
      | none => none
      | some f' => fillLoop w rest (i + 1) (f', s)
    else
      match setArr s (i - w) v with
      | none => none
      | some s' => fillLoop w rest (i + 1) (f, s')

/-- Overwrite the slice of `a` starting at `j` with `xs`. -/
def overwrite (a : List Nat) (j : Nat) (xs : List Nat) : List Nat :=
  a.take j ++ xs ++ a.drop (j + xs.length)

theorem overwrite_nil (a : List Nat) (j : Nat) : overwrite a j [] = a := by
  unfold overwrite
  simp [List.take_append_drop]

theorem overwrite_cons (a : List Nat) (j v : Nat) (xs : List Nat) (h : j < a.length) :
    overwrite a j (v :: xs) = overwrite (a.set j v) (j + 1) xs := by
  unfold overwrite
  have hset : a.set j v = a.take j ++ v :: a.drop (j + 1) := List.set_eq_take_cons_drop v h
  have hlen : (a.take j).length = j := by
    simp only [List.length_take]; omega
  rw [hset]
  have htake : (a.take j ++ v :: a.drop (j + 1)).take (j + 1) = a.take j ++ [v] := by
    have : j + 1 = (a.take j).length + 1 := by rw [hlen]
    rw [this, List.take_append]
    simp
  have hdrop : (a.take j ++ v :: a.drop (j + 1)).drop (j + 1 + xs.length) =
      a.drop (j + (xs.length + 1)) := by
    have h1 : j + 1 + xs.length = (a.take j).length + (1 + xs.length) := by rw [hlen]; omega
    rw [h1, List.drop_append]
    have h2 : 1 + xs.length = xs.length + 1 := by omega
    rw [h2, List.drop_succ_cons, List.drop_drop]
    congr 1
    omega
  rw [htake, hdrop]
  simp

theorem fill_char (w : Nat) :
    ∀ le : List Nat, ∀ i : Nat, ∀ f s : List Nat,
      f.length = w → s.length = w → i + le.length ≤ 2 * w →
      fillLoop w le i (f, s) =
        some (overwrite f i (le.take (w - i)), overwrite s (i - w) (le.drop (w - i))) := by
  intro le
  induction le with
  | nil =>
    intro i f s hf hs hle
    simp [fillLoop, overwrite_nil]
  | cons v rest ih =>
    intro i f s hf hs hle
    simp only [List.length_cons] at hle
    by_cases hi : i < w
    · have hset : setArr f i v = some (f.set i v) := by
        unfold setArr
        rw [if_pos (by omega)]
      simp only [fillLoop, if_pos hi, hset]
      rw [ih (i + 1) (f.set i v) s (by simp [hf]) hs (by omega)]
      congr 2
      · have h1 : w - i = (w - (i + 1)) + 1 := by omega
        rw [h1]
        simp only [List.take_succ_cons]
        rw [overwrite_cons f i v _ (by omega)]
      · have h1 : i - w = 0 := by omega
        have h2 : i + 1 - w = 0 := by omega
        rw [h1, h2]
        congr 1
        have h3 : w - i = (w - (i + 1)) + 1 := by omega
        rw [h3]
        simp
    · have hiw : i - w < w := by omega
      have hset : setArr s (i - w) v = some (s.set (i - w) v) := by
        unfold setArr
        rw [if_pos (by omega)]
      simp only [fillLoop, if_neg hi, hset]
      rw [ih (i + 1) f (s.set (i - w) v) hf (by simp [hs]) (by omega)]
      have h0 : w - i = 0 := by omega
      have h0' : w - (i + 1) = 0 := by omega
      congr 2
      · rw [h0, h0']
        simp [overwrite_nil]
      · rw [h0, h0']
        simp only [List.drop_zero]
        rw [overwrite_cons s (i - w) v rest (by omega)]
        congr 1
        omega

theorem fill_append (w : Nat) (a b : List Nat) :
    ∀ i : Nat, ∀ st : List Nat × List Nat,
      fillLoop w (a ++ b) i st =
        (fillLoop w a i st).bind (fun st' => fillLoop w b (i + a.length) st') := by
  induction a with
  | nil => intro i st; simp [fillLoop]
  | cons v rest ih =>
    intro i st
    obtain ⟨f, s⟩ := st
    by_cases hi : i < w
    · cases hset : setArr f i v with
      | none => simp only [List.cons_append, fillLoop, if_pos hi, hset, Option.none_bind]
      | some f' =>
        simp only [List.cons_append, fillLoop, if_pos hi, hset, List.append_eq]
        rw [ih (i + 1) (f', s)]
        have harith : i + 1 + rest.length = i + (v :: rest).length := by
          simp only [List.length_cons]; omega
        rw [harith]
    · cases hset : setArr s (i - w) v with
      | none => simp only [List.cons_append, fillLoop, if_neg hi, hset, Option.none_bind]
      | some s' =>
        simp only [List.cons_append, fillLoop, if_neg hi, hset, List.append_eq]
        rw [ih (i + 1) (f, s')]
        have harith : i + 1 + rest.length = i + (v :: rest).length := by
          simp only [List.length_cons]; omega
        rw [harith]

theorem fill_fail (w : Nat) (le : List Nat) (i : Nat) (f s : List Nat)
    (hs : s.length = w) (hi : 2 * w ≤ i) (hle : le ≠ []) :
    fillLoop w le i (f, s) = none := by
  cases le with
  | nil => exact absurd rfl hle
  | cons v rest =>
    have hiw : ¬ i < w := by omega
    have hset : setArr s (i - w) v = none := by
      unfold setArr
      rw [if_neg (by omega)]
    simp only [fillLoop, if_neg hiw, hset]

theorem fill_overflow (w : Nat) (le : List Nat) (f s : List Nat)
    (hf : f.length = w) (hs : s.length = w) (hle : 2 * w < le.length) :
    fillLoop w le 0 (f, s) = none := by
  have hsplit : le = le.take (2 * w) ++ le.drop (2 * w) := (List.take_append_drop _ le).symm
  rw [hsplit, fill_append]
  have htlen : (le.take (2 * w)).length = 2 * w := by
    simp only [List.length_take]; omega
  rw [fill_char w _ 0 f s hf hs (by omega)]
  rw [Option.some_bind]
  refine fill_fail w _ _ _ _ ?_ (by omega) ?_
  · unfold overwrite
    simp only [List.length_append, List.length_take, List.length_drop]
    omega
  · intro hnil
    have := congrArg List.length hnil
    simp only [List.length_drop, List.length_nil] at this
    omega

/-- A bn254 base-group affine point as built by the decoder: a pair of
`Fq` coordinate values (naturals; decoded values are `< q`). -/
structure G1 where
  x : Nat
  y : Nat
deriving DecidableEq

/-- A degree-2 extension-field element `c0 + c1·u`. -/
structure Fq2 where
  c0 : Nat
  c1 : Nat
deriving DecidableEq

/-- A bn254 extension-group affine point. -/
structure G2 where
  x : Fq2
  y : Fq2
deriving DecidableEq

/-- Models `Fq::from_bytes` of halo2curves: canonical little-endian decode of
32 bytes, failing when the value reaches the field modulus. -/
def fqFromBytes (bs : List Nat) : Option Nat :=
  if leBytesToNat bs < q then some (leBytesToNat bs) else none

/-- Models `G1Affine::from_xy`: accepts the coordinate pair exactly when it
satisfies the bn254 curve equation `y^2 = x^3 + 3`. -/
def g1FromXY (x y : Nat) : Option G1 :=
  if y * y % q = (x * x * x + 3) % q then some ⟨x, y⟩ else none

/-- The tail of `to_g1_point` after the byte shuffle: parse the two 32-byte
arrays as field elements (panic on failure) and build the affine point
(panic when off-curve). -/
def g1Parse (first second : List Nat) : Option G1 :=
  match fqFromBytes first, fqFromBytes second with
  | some x, some y => g1FromXY x y
  | _, _ => none

/-- `to_g1_point` from `src/halo2_params.rs`: reverse each 8-byte limb,
scatter the result into two 32-byte arrays (x then y), parse both
coordinates and validate the curve equation.  `none` models a panic. -/
def to_g1_point (point : List Nat) : Option G1 :=
  match fillLoop 32 (perLimbRev point) 0 (List.replicate 32 0, List.replicate 32 0) with
  | none => none
  | some (first_byte_array, second_byte_array) =>
    g1Parse first_byte_array second_byte_array

/-- Addition in `Fq2` (componentwise mod `q`). -/
def fq2Add (a b : Fq2) : Fq2 :=
  ⟨(a.c0 + b.c0) % q, (a.c1 + b.c1) % q⟩

/-- Subtraction in `Fq` for reduced operands. -/
def fqSub (a b : Nat) : Nat := (q + a - b) % q

/-- Multiplication in `Fq2` with `u^2 = -1`. -/
def fq2Mul (a b : Fq2) : Fq2 :=
  ⟨fqSub (a.c0 * b.c0 % q) (a.c1 * b.c1 % q),
   (a.c0 * b.c1 % q + a.c1 * b.c0 % q) % q⟩

/-- The constant `b = 3/(9+u)` of the bn254 extension-group curve. -/
def b2 : Fq2 :=
  ⟨19485874751759354771024239261021720505790618469301721065564631296452457478373,
   266929791119991161246907387137283842545076965332900288569378510910307636690⟩

/-- Models `Fq2::from_bytes`: 64 bytes, `c0` from the first 32 and `c1` from
the last 32, each a canonical `Fq` decode. -/
def fq2FromBytes (bs : List Nat) : Option Fq2 :=
  match fqFromBytes (bs.take 32), fqFromBytes ((bs.drop 32).take 32) with
  | some c0, some c1 => some ⟨c0, c1⟩
  | _, _ => none

/-- Models `G2Affine::from_xy`: curve equation `y^2 = x^3 + b2` over `Fq2`. -/
def g2FromXY (x y : Fq2) : Option G2 :=
  if fq2Mul y y = fq2Add (fq2Mul x (fq2Mul x x)) b2 then some ⟨x, y⟩ else none

/-- The tail of `to_g2_point` after the byte shuffle. -/
def g2Parse (first second : List Nat) : Option G2 :=
  match fq2FromBytes first, fq2FromBytes second with
  | some x, some y => g2FromXY x y
  | _, _ => none

/-- `to_g2_point` from `src/halo2_params.rs`: same shape as `to_g1_point`
with 64-byte halves. -/
def to_g2_point (point : List Nat) : Option G2 :=
  match fillLoop 64 (perLimbRev point) 0 (List.replicate 64 0, List.replicate 64 0) with
  | none => none
  | some (first_byte_array, second_byte_array) =>
    g2Parse first_byte_array second_byte_array

/-- The bn254 base-group generator `(1, 2)`
(`G1Affine::generator()` of halo2curves). -/
def g1gen : G1 := ⟨1, 2⟩

/-- The bn254 extension-group generator (`G2Affine::generator()`). -/
def g2gen : G2 :=
  ⟨⟨10857046999023057135944570762232829481370756359578518086990519993285655852781,
    11559732032986387107991004021392285783925812861821192530917403151452391805634⟩,
   ⟨8495653923123431417604973247489272438418190587263600148770280649306958101930,
    4082367875863433681332203403145435568316851327593401208105741076214120093531⟩⟩

/-- Floor base-2 logarithm, fuel-driven (structural, kernel-evaluable).
For `n < 2 ^ fuel` it is the exact floor logarithm. -/
def log2floor : Nat → Nat → Nat
  | 0, _ => 0
  | fuel + 1, n => if n ≤ 1 then 0 else log2floor fuel (n / 2) + 1

/-- `pow2ceil` from `src/halo2_params.rs`, i.e. `u32::next_power_of_two`
with release-mode wrapping semantics: for `2 ≤ v` the result is
`2 ^ (⌊log2 (v-1)⌋ + 1) mod 2^32` (so inputs above `2^31` wrap to `0`;
in debug builds Rust panics on exactly those inputs). -/
def pow2ceil (v : Nat) : Nat :=
  if v ≤ 1 then 1 else 2 ^ (log2floor 32 (v - 1) + 1) % 2 ^ 32

/-- Models `ark_std::log2` (ceiling base-2 logarithm of a `usize`,
with `log2 0 = 0`). -/
def ark_log2 (x : Nat) : Nat :=
  if x ≤ 1 then 0 else log2floor 64 (x - 1) + 1

/-- The `assert!(n == 1 << k)` of `constuct_halo2_params_from_aztec_crs`,
with `n : u64` and the shift mod `2^64` (in every reachable state
`k = ark_log2 n ≤ 32`, so the wrap is inert). -/
def crs_assert (n k : Nat) : Bool :=
  n == (1 <<< k) % 2 ^ 64

/-- Models `SerdeObject::write_raw` for one `Fq`: a fixed-width 32-byte
little-endian encoding (the library writes the Montgomery limbs; we use the
canonical value, which is the same fixed-width bijective encoding at the
granularity the layout claims speak about). -/
def rawFq (x : Nat) : List Nat := natToLE 32 x

/-- Raw (uncompressed, unvalidated) encoding of a base-group point:
x then y, 64 bytes. -/
def rawG1 (p : G1) : List Nat := rawFq p.x ++ rawFq p.y

/-- Raw encoding of an `Fq2`: `c0` then `c1`. -/
def rawFq2 (a : Fq2) : List Nat := rawFq a.c0 ++ rawFq a.c1

/-- Raw encoding of an extension-group point: x then y, 128 bytes. -/
def rawG2 (p : G2) : List Nat := rawFq2 p.x ++ rawFq2 p.y

/-- The target parameter structure `ParamsKZG<Bn256>`. -/
structure ParamsKZG where
  k : Nat
  g : List G1
  g_lagrange : List G1
  g2 : G2
  s_g2 : G2
deriving DecidableEq

/-- The serialization buffer assembled by `params_kzg`: `k` as 4 little-endian
bytes, then each monomial point raw, each Lagrange point raw, then the two
extension-group points raw (`buf.write`/`write_raw` appends). -/
def params_kzg_buf (k : Nat) (g g_lagrange : List G1) (g2 s_g2 : G2) : List Nat :=
  let buf : List Nat := [] ++ natToLE 4 k
  let buf := g.foldl (fun b el => b ++ rawG1 el) buf
  let buf := g_lagrange.foldl (fun b el => b ++ rawG1 el) buf
  let buf := buf ++ rawG2 g2
  buf ++ rawG2 s_g2

/-- Unchecked raw decode of one 64-byte base-group block
(`SerdeObject::read_raw_unchecked`): no canonicity or curve check. -/
def readG1raw (bs : List Nat) : G1 :=
  ⟨leBytesToNat (bs.take 32), leBytesToNat ((bs.drop 32).take 32)⟩

/-- Unchecked raw decode of one 128-byte extension-group block. -/
def readG2raw (bs : List Nat) : G2 :=
  ⟨⟨leBytesToNat (bs.take 32), leBytesToNat ((bs.drop 32).take 32)⟩,
   ⟨leBytesToNat ((bs.drop 64).take 32), leBytesToNat ((bs.drop 96).take 32)⟩⟩

/-- Field extraction of the raw-unchecked reader: given `k` and the body
after the 4 `k`-bytes, cut `n = 2^k` monomial points, `n` Lagrange points
and the two extension-group points, in that order. -/
def readParams (k : Nat) (body : List Nat) : ParamsKZG :=
  { k := k
    g := (chunks 64 (body.take (2 ^ k * 64))).map readG1raw
    g_lagrange := (chunks 64 ((body.drop (2 ^ k * 64)).take (2 ^ k * 64))).map readG1raw
    g2 := readG2raw (((body.drop (2 ^ k * 64)).drop (2 ^ k * 64)).take 128)
    s_g2 := readG2raw ((((body.drop (2 ^ k * 64)).drop (2 ^ k * 64)).drop 128).take 128) }

/-- Models `ParamsKZG::<Bn256>::read_custom(_, SerdeFormat::RawBytesUnchecked)`:
read `k` from 4 little-endian bytes, derive `n = 2^k`, then read `n` monomial
points, `n` Lagrange points and two extension-group points, all in the raw
unchecked encoding (no validation); fail (`none`, a panic in the Rust caller)
when the buffer is too short.  Trailing bytes are ignored, as for a reader. -/
def read_custom (buf : List Nat) : Option ParamsKZG :=
  if 4 ≤ buf.length then
    if 2 ^ leBytesToNat (buf.take 4) * 64 + 2 ^ leBytesToNat (buf.take 4) * 64 + 256 ≤
        (buf.drop 4).length then
      some (readParams (leBytesToNat (buf.take 4)) (buf.drop 4))
    else none
  else none

/-- `params_kzg` from `src/halo2_params.rs`: serialize the parameters and
feed the buffer back through the library deserializer. -/
def params_kzg (k : Nat) (g g_lagrange : List G1) (g2 s_g2 : G2) : Option ParamsKZG :=
  read_custom (params_kzg_buf k g g_lagrange g2 s_g2)

/-- `Option`-valued map: `none` as soon as one element fails, as the panics
inside `g1_data.chunks(64).map(to_g1_point)` abort the whole pipeline. -/
def mapMopt (f : α → Option β) : List α → Option (List β)
  | [] => some []
  | a :: l =>
    match f a, mapMopt f l with
    | some b, some bs => some (b :: bs)
    | _, _ => none

/-- The monomial-basis point sequence of the orchestrator: the base-group
generator followed by the decoded 64-byte ceremony blocks in buffer order
(`vec![generator]` extended with `g1_data.chunks(64).map(to_g1_point)`). -/
def monomialSeq (g1_data : List Nat) : Option (List G1) :=
  match mapMopt to_g1_point (chunks 64 g1_data) with
  | none => none
  | some pts => some (g1gen :: pts)

/-- The error kinds of the spec (`crate::errors::Error` is outside `src/`;
only the fetch step can return one in the embedded pipeline). -/
inductive CrsError
  | DataFetchError
  | PointDecodingError
  | AssemblyError
deriving DecidableEq

/-- Result of one pipeline invocation: a returned value, a returned error,
or a Rust panic. -/
inductive Outcome (α : Type)
  | ok : α → Outcome α
  | err : CrsError → Outcome α
  | panic : Outcome α
deriving DecidableEq

/-- `constuct_halo2_params_from_aztec_crs` (source spelling kept), as a
function of the external collaborators: `get_aztec_crs` is the ceremony data
provider (`?` propagates its error), `g_to_lagrange` is the black-box basis
transform taking the monomial sequence and `k`. -/
def constuct_halo2_params_from_aztec_crs (num_points : Nat)
    (get_aztec_crs : Nat → Except CrsError (List Nat × List Nat))
    (g_to_lagrange : List G1 → Nat → List G1) : Outcome ParamsKZG :=
  let points_needed := pow2ceil num_points
  match get_aztec_crs points_needed with
  | .error e => .err e
  | .ok (g1_data, g2_data) =>
    let k := ark_log2 points_needed
    let n := points_needed
    if crs_assert n k then
      match monomialSeq g1_data with
      | none => .panic
      | some g =>
        let g_lagrange := g_to_lagrange g k
        match to_g2_point g2_data with
        | none => .panic
        | some s_g2 =>
          match params_kzg k g g_lagrange g2gen s_g2 with
          | none => .panic
          | some params => .ok params
    else .panic

/-- Modelled from the spec: the ceremony byte layout for one base-group
point — 32-byte little-endian x then y, each 8-byte limb stored
most-significant-byte-first (so `perLimbRev` of the little-endian pair). -/
def ceremonyEncodeG1 (x y : Nat) : List Nat :=
  perLimbRev (natToLE 32 x ++ natToLE 32 y)

/-- Right-pad a byte list with zeros to width `w`. -/
def padTo (w : Nat) (l : List Nat) : List Nat :=
  l ++ List.replicate (w - l.length) 0

theorem log2floor_bounds (fuel : Nat) :
    ∀ n : Nat, 1 ≤ n → n < 2 ^ fuel →
      2 ^ log2floor fuel n ≤ n ∧ n < 2 ^ (log2floor fuel n + 1) := by
  induction fuel with
  | zero => intro n h1 h2; simp at h2; omega
  | succ fuel ih =>
    intro n h1 h2
    by_cases hle : n ≤ 1
    · have hn : n = 1 := by omega
      subst hn
      simp [log2floor]
    · simp only [log2floor, if_neg hle]
      have hge : 1 ≤ n / 2 := by omega
      have hlt : n / 2 < 2 ^ fuel := by
        have hp : 2 ^ (fuel + 1) = 2 ^ fuel * 2 := by ring
        omega
      obtain ⟨hA, hB⟩ := ih (n / 2) hge hlt
      have p1 : 2 ^ (log2floor fuel (n / 2) + 1) = 2 * 2 ^ (log2floor fuel (n / 2)) := by ring
      have p2 : 2 ^ (log2floor fuel (n / 2) + 1 + 1) = 2 * 2 ^ (log2floor fuel (n / 2) + 1) := by
        ring
      omega

theorem pow2ceil_pow (p : Nat) (h2 : 2 ≤ p) (hp : p ≤ 2 ^ 31) :
    ∃ e, pow2ceil p = 2 ^ (e + 1) ∧ 2 ^ e ≤ p - 1 ∧ p - 1 < 2 ^ (e + 1) ∧ e + 1 ≤ 31 := by
  have h1 : 1 ≤ p - 1 := by omega
  have hlt : p - 1 < 2 ^ 32 := by
    have h32 : (2 : Nat) ^ 31 < 2 ^ 32 := by norm_num
    omega
  obtain ⟨hA, hB⟩ := log2floor_bounds 32 (p - 1) h1 hlt
  have he31 : log2floor 32 (p - 1) + 1 ≤ 31 := by
    by_contra hcon
    have h31 : 31 ≤ log2floor 32 (p - 1) := by omega
    have hpow : 2 ^ 31 ≤ 2 ^ log2floor 32 (p - 1) :=
      Nat.pow_le_pow_right (by norm_num) h31
    omega
  refine ⟨log2floor 32 (p - 1), ?_, hA, hB, he31⟩
  unfold pow2ceil
  rw [if_neg (by omega)]
  have hsmall : 2 ^ (log2floor 32 (p - 1) + 1) < 2 ^ 32 :=
    Nat.pow_lt_pow_right (by norm_num) (by omega)
  exact Nat.mod_eq_of_lt hsmall

theorem ark_log2_two_pow (j : Nat) (hj : j ≤ 63) : ark_log2 (2 ^ j) = j := by
  cases j with
  | zero => simp [ark_log2]
  | succ j =>
    unfold ark_log2
    have h2j : 2 ≤ 2 ^ (j + 1) := by
      calc (2 : Nat) = 2 ^ 1 := by norm_num
        _ ≤ 2 ^ (j + 1) := Nat.pow_le_pow_right (by norm_num) (by omega)
    rw [if_neg (by omega)]
    have h1 : 1 ≤ 2 ^ (j + 1) - 1 := by omega
    have hlt : 2 ^ (j + 1) - 1 < 2 ^ 64 := by
      have hle : 2 ^ (j + 1) ≤ 2 ^ 64 := Nat.pow_le_pow_right (by norm_num) (by omega)
      omega
    obtain ⟨hA, hB⟩ := log2floor_bounds 64 (2 ^ (j + 1) - 1) h1 hlt
    have he_lt : log2floor 64 (2 ^ (j + 1) - 1) < j + 1 := by
      by_contra hc
      have hge : 2 ^ (j + 1) ≤ 2 ^ log2floor 64 (2 ^ (j + 1) - 1) :=
        Nat.pow_le_pow_right (by norm_num) (by omega)
      omega
    have hj_le : j + 1 ≤ log2floor 64 (2 ^ (j + 1) - 1) + 1 := by
      by_contra hc
      have h3 : 2 ^ (log2floor 64 (2 ^ (j + 1) - 1) + 1) ≤ 2 ^ j :=
        Nat.pow_le_pow_right (by norm_num) (by omega)
      have h4 : 2 ^ (j + 1) = 2 * 2 ^ j := by ring
      omega
    omega

/-- C2 (amended): for every requested point count `p ≤ 2^31`, `pow2ceil p`
is the smallest power of two that is at least `p`; `p = 0` and `p = 1` round
to `1`, and a power of two is unchanged.  (For `p > 2^31` the `u32`
computation overflows, see the counterexample.) -/
theorem pow2ceil_rounds_up (p : Nat) (hp : p ≤ 2 ^ 31) :
    (∃ k, pow2ceil p = 2 ^ k) ∧
    p ≤ pow2ceil p ∧
    (∀ j, p ≤ 2 ^ j → pow2ceil p ≤ 2 ^ j) ∧
    (p = 0 ∨ p = 1 → pow2ceil p = 1) ∧
    ((∃ m, p = 2 ^ m) → pow2ceil p = p) := by
  by_cases h2 : p ≤ 1
  · have hv : pow2ceil p = 1 := by unfold pow2ceil; rw [if_pos h2]
    refine ⟨⟨0, by simp [hv]⟩, by omega, ?_, fun _ => hv, ?_⟩
    · intro j _
      rw [hv]
      exact Nat.one_le_two_pow
    · rintro ⟨m, hm⟩
      have hmp : 1 ≤ 2 ^ m := Nat.one_le_two_pow
      omega
  · push_neg at h2
    obtain ⟨e, hval, hA, hB, he31⟩ := pow2ceil_pow p (by omega) hp
    refine ⟨⟨e + 1, hval⟩, by omega, ?_, by omega, ?_⟩
    · intro j hj
      by_cases hje : e + 1 ≤ j
      · rw [hval]
        exact Nat.pow_le_pow_right (by norm_num) hje
      · exfalso
        have hj_e : 2 ^ j ≤ 2 ^ e := Nat.pow_le_pow_right (by norm_num) (by omega)
        omega
    · rintro ⟨m, hm⟩
      subst hm
      rw [hval]
      congr 1
      have hlt1 : 2 ^ e < 2 ^ m := by omega
      have hle2 : 2 ^ m ≤ 2 ^ (e + 1) := by omega
      have h5 : e < m := (Nat.pow_lt_pow_iff_right (by norm_num)).mp hlt1
      have h6 : m ≤ e + 1 := (Nat.pow_le_pow_iff_right (by norm_num)).mp hle2
      omega

/-- C2 (counterexample): at the `u32` input `2^31 + 1` the rounded count
wraps to `0`, which is not `≥ p` (and is no power of two). -/
theorem pow2ceil_overflow_cex :
    pow2ceil (2 ^ 31 + 1) = 0 ∧ ¬ (2 ^ 31 + 1 ≤ pow2ceil (2 ^ 31 + 1)) := by
  decide

/-- C2 (witness): the amended rounding property at `p = 3`. -/
theorem pow2ceil_rounds_up_witness :
    (3 : Nat) ≤ pow2ceil 3 ∧ pow2ceil 3 ≤ 2 ^ 2 :=
  ⟨(pow2ceil_rounds_up 3 (by norm_num)).2.1,
   (pow2ceil_rounds_up 3 (by norm_num)).2.2.1 2 (by norm_num)⟩

/-- C8 (amended): for every requested point count `≤ 2^31` the assertion
`assert!(n == 1 << k)` of `constuct_halo2_params_from_aztec_crs` holds
(`n = pow2ceil num`, `k = ark_log2 n`).  Above `2^31` the wrap of `pow2ceil`
makes it fire, see the counterexample. -/
theorem crs_assert_holds (num : Nat) (h : num ≤ 2 ^ 31) :
    crs_assert (pow2ceil num) (ark_log2 (pow2ceil num)) = true := by
  have hj : ∃ j, j ≤ 31 ∧ pow2ceil num = 2 ^ j := by
    by_cases h2 : num ≤ 1
    · exact ⟨0, by omega, by unfold pow2ceil; rw [if_pos h2]; norm_num⟩
    · obtain ⟨e, hval, _, _, he31⟩ := pow2ceil_pow num (by omega) h
      exact ⟨e + 1, he31, hval⟩
  obtain ⟨j, hj31, hval⟩ := hj
  rw [hval, ark_log2_two_pow j (by omega)]
  unfold crs_assert
  have hshift : (1 <<< j) % 2 ^ 64 = 2 ^ j := by
    rw [Nat.shiftLeft_eq, one_mul]
    exact Nat.mod_eq_of_lt (Nat.pow_lt_pow_right (by norm_num) (by omega))
  rw [hshift]
  simp

/-- C8 (counterexample): at requested count `2^31 + 1` the rounded count is
`0`, `ark_log2 0 = 0`, and `0 ≠ 1 << 0`: the assertion fires. -/
theorem crs_assert_overflow_cex :
    crs_assert (pow2ceil (2 ^ 31 + 1)) (ark_log2 (pow2ceil (2 ^ 31 + 1))) = false := by
  decide

/-- C8 (witness): the assertion holds at requested count `4`. -/
theorem crs_assert_holds_witness :
    crs_assert (pow2ceil 4) (ark_log2 (pow2ceil 4)) = true :=
  crs_assert_holds 4 (by norm_num)

theorem padTo_full (w : Nat) (l : List Nat) (h : l.length = w) : padTo w l = l := by
  unfold padTo
  rw [h]
  simp

theorem overwrite_zero_pad (w : Nat) (xs : List Nat) (_h : xs.length ≤ w) :
    overwrite (List.replicate w 0) 0 xs = padTo w xs := by
  unfold overwrite padTo
  simp [List.drop_replicate]

theorem to_g1_point_fill (point : List Nat) (h : point.length ≤ 64) :
    to_g1_point point =
      g1Parse (padTo 32 ((perLimbRev point).take 32))
        (padTo 32 ((perLimbRev point).drop 32)) := by
  unfold to_g1_point
  have hlen : (perLimbRev point).length = point.length := perLimbRev_length point
  rw [fill_char 32 (perLimbRev point) 0 (List.replicate 32 0) (List.replicate 32 0)
    (by simp) (by simp) (by omega)]
  simp only [Nat.sub_zero, Nat.zero_sub]
  rw [overwrite_zero_pad 32 _ (by simp only [List.length_take]; omega),
    overwrite_zero_pad 32 _ (by simp only [List.length_drop]; omega)]

theorem to_g2_point_fill (point : List Nat) (h : point.length ≤ 128) :
    to_g2_point point =
      g2Parse (padTo 64 ((perLimbRev point).take 64))
        (padTo 64 ((perLimbRev point).drop 64)) := by
  unfold to_g2_point
  have hlen : (perLimbRev point).length = point.length := perLimbRev_length point
  rw [fill_char 64 (perLimbRev point) 0 (List.replicate 64 0) (List.replicate 64 0)
    (by simp) (by simp) (by omega)]
  simp only [Nat.sub_zero, Nat.zero_sub]
  rw [overwrite_zero_pad 64 _ (by simp only [List.length_take]; omega),
    overwrite_zero_pad 64 _ (by simp only [List.length_drop]; omega)]

/-- C4: on a full-width input block each decoder reverses every 8-byte limb
independently (`perLimbRev`, which is not the global reversal), splits the
result into two equal halves and parses the first half as the x-coordinate
and the second as the y-coordinate (32-byte halves for the base group,
64-byte halves for the extension group). -/
theorem decoders_split_halves :
    (∀ p : List Nat,
      (p.length = 64 →
        to_g1_point p = g1Parse ((perLimbRev p).take 32) ((perLimbRev p).drop 32)) ∧
      (p.length = 128 →
        to_g2_point p = g2Parse ((perLimbRev p).take 64) ((perLimbRev p).drop 64))) ∧
    (∃ l : List Nat, l.length = 64 ∧ perLimbRev l ≠ l.reverse) := by
  constructor
  · intro p
    constructor
    · intro h
      have hlen : (perLimbRev p).length = p.length := perLimbRev_length p
      rw [to_g1_point_fill p (by omega)]
      rw [padTo_full 32 _ (by simp only [List.length_take]; omega),
        padTo_full 32 _ (by simp only [List.length_drop]; omega)]
    · intro h
      have hlen : (perLimbRev p).length = p.length := perLimbRev_length p
      rw [to_g2_point_fill p (by omega)]
      rw [padTo_full 64 _ (by simp only [List.length_take]; omega),
        padTo_full 64 _ (by simp only [List.length_drop]; omega)]
  · exact ⟨List.range 64, by decide, by decide⟩

/-- C4 (witness): the half-splitting shape of both decoders at concrete
full-width blocks. -/
theorem decoders_split_halves_witness :
    to_g1_point (List.range 64) =
      g1Parse ((perLimbRev (List.range 64)).take 32) ((perLimbRev (List.range 64)).drop 32) ∧
    to_g2_point (List.range 128) =
      g2Parse ((perLimbRev (List.range 128)).take 64) ((perLimbRev (List.range 128)).drop 64) :=
  ⟨(decoders_split_halves.1 (List.range 64)).1 (by simp),
   (decoders_split_halves.1 (List.range 128)).2 (by simp)⟩

/-- C10: `to_g1_point` is only well-defined on 64-byte blocks: a shorter
block is decoded with the missing bytes silently zero (the result is the
parse of the zero-padded halves, with no length check rejecting the block),
and a longer block makes the scatter loop panic with an out-of-bounds array
store. -/
theorem to_g1_point_block_size (p : List Nat) :
    (p.length < 64 →
      to_g1_point p =
        g1Parse (padTo 32 ((perLimbRev p).take 32)) (padTo 32 ((perLimbRev p).drop 32))) ∧
    (64 < p.length →
      fillLoop 32 (perLimbRev p) 0 (List.replicate 32 0, List.replicate 32 0) = none ∧
      to_g1_point p = none) := by
  constructor
  · intro h
    exact to_g1_point_fill p (by omega)
  · intro h
    have hlen : (perLimbRev p).length = p.length := perLimbRev_length p
    have hfail : fillLoop 32 (perLimbRev p) 0 (List.replicate 32 0, List.replicate 32 0) = none :=
      fill_overflow 32 _ _ _ (by simp) (by simp) (by omega)
    refine ⟨hfail, ?_⟩
    unfold to_g1_point
    rw [hfail]

/-- C10 (witness): a 1-byte block decodes from zero-padded halves, and a
65-byte block panics. -/
theorem to_g1_point_block_size_witness :
    to_g1_point [1] =
      g1Parse (padTo 32 ((perLimbRev [1]).take 32)) (padTo 32 ((perLimbRev [1]).drop 32)) ∧
    to_g1_point (List.range 65) = none :=
  ⟨(to_g1_point_block_size [1]).1 (by decide),
   ((to_g1_point_block_size (List.range 65)).2 (by simp)).2⟩

/-- C6: encoding any valid affine base-group point (coordinates reduced,
curve equation satisfied) into the ceremony byte layout and decoding it
with `to_g1_point` reproduces the point exactly. -/
theorem ceremony_roundtrip_g1 (x y : Nat) (hx : x < q) (hy : y < q)
    (hcurve : y * y % q = (x * x * x + 3) % q) :
    to_g1_point (ceremonyEncodeG1 x y) = some ⟨x, y⟩ := by
  have hq : q < 256 ^ 32 := by decide
  have hA : perLimbRev (ceremonyEncodeG1 x y) = natToLE 32 x ++ natToLE 32 y := by
    unfold ceremonyEncodeG1
    exact perLimbRev_invol _
  have hlen : (ceremonyEncodeG1 x y).length = 64 := by
    unfold ceremonyEncodeG1
    rw [perLimbRev_length]
    simp [natToLE_length]
  rw [to_g1_point_fill _ (by omega), hA,
    List.take_left' (natToLE_length 32 x), List.drop_left' (natToLE_length 32 x),
    padTo_full 32 _ (natToLE_length 32 x), padTo_full 32 _ (natToLE_length 32 y)]
  have hxparse : fqFromBytes (natToLE 32 x) = some x := by
    unfold fqFromBytes
    rw [leBytesToNat_natToLE 32 x (by omega), if_pos hx]
  have hyparse : fqFromBytes (natToLE 32 y) = some y := by
    unfold fqFromBytes
    rw [leBytesToNat_natToLE 32 y (by omega), if_pos hy]
  simp only [g1Parse, hxparse, hyparse, g1FromXY]
  rw [if_pos hcurve]

/-- C6 (witness): the round trip at the generator `(1, 2)`. -/
theorem ceremony_roundtrip_g1_witness :
    to_g1_point (ceremonyEncodeG1 1 2) = some ⟨1, 2⟩ :=
  ceremony_roundtrip_g1 1 2 (by decide) (by decide) (by decide)

theorem rawG1_length (p : G1) : (rawG1 p).length = 64 := by
  simp [rawG1, rawFq, natToLE_length]

theorem rawG2_length (p : G2) : (rawG2 p).length = 128 := by
  simp [rawG2, rawFq2, rawFq, natToLE_length]

theorem foldl_append_raw {α : Type} (f : α → List Nat) (l : List α) :
    ∀ init : List Nat,
      l.foldl (fun b el => b ++ f el) init = init ++ (l.map f).flatten := by
  induction l with
  | nil => intro init; simp
  | cons p rest ih =>
    intro init
    simp only [List.foldl_cons, List.map_cons, List.flatten_cons, ih]
    simp [List.append_assoc]

theorem flatten_rawG1_length (l : List G1) :
    ((l.map rawG1).flatten).length = l.length * 64 := by
  induction l with
  | nil => simp
  | cons p rest ih =>
    simp only [List.map_cons, List.flatten_cons, List.length_append, ih,
      rawG1_length, List.length_cons]
    ring

theorem params_kzg_buf_eq (k : Nat) (g lag : List G1) (g2 s_g2 : G2) :
    params_kzg_buf k g lag g2 s_g2 =
      natToLE 4 k ++
        ((g.map rawG1).flatten ++
          ((lag.map rawG1).flatten ++ (rawG2 g2 ++ rawG2 s_g2))) := by
  simp only [params_kzg_buf]
  rw [foldl_append_raw rawG1 g, foldl_append_raw rawG1 lag]
  simp [List.append_assoc]

/-- C3: the buffer assembled by `params_kzg` is exactly, in order, `k` as a
4-byte little-endian integer, the `n` monomial points raw, the `n` Lagrange
points raw, the extension-group generator, then the extension-group secret
point; its total length is `4 + n*64 + n*64 + 128*2` bytes (64 bytes per raw
base-group point, 128 per raw extension-group point). -/
theorem params_kzg_buf_layout (k : Nat) (g lag : List G1) (g2 s_g2 : G2) (n : Nat)
    (hg : g.length = n) (hlag : lag.length = n) :
    params_kzg_buf k g lag g2 s_g2 =
      natToLE 4 k ++ (g.map rawG1).flatten ++ (lag.map rawG1).flatten ++
        rawG2 g2 ++ rawG2 s_g2 ∧
    (params_kzg_buf k g lag g2 s_g2).length = 4 + n * 64 + n * 64 + 128 * 2 := by
  constructor
  · rw [params_kzg_buf_eq]
    simp [List.append_assoc]
  · rw [params_kzg_buf_eq]
    simp only [List.length_append, natToLE_length, flatten_rawG1_length,
      rawG2_length, hg, hlag]
    ring

/-- C3 (witness): the layout and the length formula at `k = 0`,
one monomial and one Lagrange point. -/
theorem params_kzg_buf_layout_witness :
    params_kzg_buf 0 [g1gen] [g1gen] g2gen g2gen =
      natToLE 4 0 ++ ([g1gen].map rawG1).flatten ++ ([g1gen].map rawG1).flatten ++
        rawG2 g2gen ++ rawG2 g2gen ∧
    (params_kzg_buf 0 [g1gen] [g1gen] g2gen g2gen).length = 4 + 1 * 64 + 1 * 64 + 128 * 2 :=
  params_kzg_buf_layout 0 [g1gen] [g1gen] g2gen g2gen 1 rfl rfl

/-- Coordinates small enough for the fixed-width raw encoding to be
injective (all decoded and generator points satisfy this: `q < 2^256`). -/
def g1InRange (p : G1) : Prop := p.x < 2 ^ 256 ∧ p.y < 2 ^ 256

/-- Componentwise coordinate bound for an extension-group point. -/
def g2InRange (p : G2) : Prop :=
  p.x.c0 < 2 ^ 256 ∧ p.x.c1 < 2 ^ 256 ∧ p.y.c0 < 2 ^ 256 ∧ p.y.c1 < 2 ^ 256

theorem readG1raw_rawG1 (p : G1) (h : g1InRange p) : readG1raw (rawG1 p) = p := by
  obtain ⟨hx, hy⟩ := h
  have e32 : (256 : Nat) ^ 32 = 2 ^ 256 := by norm_num
  unfold readG1raw rawG1 rawFq
  rw [List.take_left' (natToLE_length 32 p.x), List.drop_left' (natToLE_length 32 p.x),
    List.take_of_length_le (le_of_eq (natToLE_length 32 p.y)),
    leBytesToNat_natToLE 32 p.x (by omega), leBytesToNat_natToLE 32 p.y (by omega)]

theorem readG2raw_rawG2 (p : G2) (h : g2InRange p) : readG2raw (rawG2 p) = p := by
  obtain ⟨h0, h1, h2, h3⟩ := h
  have e32 : (256 : Nat) ^ 32 = 2 ^ 256 := by norm_num
  have hd64 : ∀ l : List Nat, l.drop 64 = (l.drop 32).drop 32 := by
    intro l; rw [List.drop_drop]
  have hd96 : ∀ l : List Nat, l.drop 96 = (l.drop 64).drop 32 := by
    intro l; rw [List.drop_drop]
  unfold readG2raw rawG2 rawFq2 rawFq
  rw [List.append_assoc]
  rw [hd64, hd96, hd64]
  rw [List.take_left' (natToLE_length 32 p.x.c0), List.drop_left' (natToLE_length 32 p.x.c0),
    List.take_left' (natToLE_length 32 p.x.c1), List.drop_left' (natToLE_length 32 p.x.c1),
    List.take_left' (natToLE_length 32 p.y.c0), List.drop_left' (natToLE_length 32 p.y.c0),
    List.take_of_length_le (le_of_eq (natToLE_length 32 p.y.c1)),
    leBytesToNat_natToLE 32 p.x.c0 (by omega), leBytesToNat_natToLE 32 p.x.c1 (by omega),
    leBytesToNat_natToLE 32 p.y.c0 (by omega), leBytesToNat_natToLE 32 p.y.c1 (by omega)]

theorem map_eq_self_of_mem {α : Type} (f : α → α) (l : List α)
    (h : ∀ a ∈ l, f a = a) : l.map f = l := by
  induction l with
  | nil => rfl
  | cons a t ih =>
    simp only [List.map_cons, h a (by simp), ih (fun b hb => h b (by simp [hb]))]

theorem chunks_map_raw_roundtrip (l : List G1) (h : ∀ p ∈ l, g1InRange p) :
    (chunks 64 ((l.map rawG1).flatten)).map readG1raw = l := by
  rw [chunks_flatten 64 (by omega) (l.map rawG1) ?_]
  · rw [List.map_map]
    exact map_eq_self_of_mem _ l (fun p hp => readG1raw_rawG1 p (h p hp))
  · intro c hc
    obtain ⟨p, _, rfl⟩ := List.mem_map.mp hc
    exact rawG1_length p

/-- C5: deserializing the assembled buffer with the raw/unchecked reader
reconstructs exactly the parameter object a direct field-by-field
constructor would have produced: its `k`, monomial points, Lagrange points
and two extension-group elements equal the inputs. -/
theorem params_kzg_roundtrip (k : Nat) (g lag : List G1) (g2 s_g2 : G2)
    (hk : k < 2 ^ 32) (hg : g.length = 2 ^ k) (hlag : lag.length = 2 ^ k)
    (hgr : ∀ p ∈ g, g1InRange p) (hlagr : ∀ p ∈ lag, g1InRange p)
    (hg2 : g2InRange g2) (hs : g2InRange s_g2) :
    params_kzg k g lag g2 s_g2 = some ⟨k, g, lag, g2, s_g2⟩ := by
  have e4 : (256 : Nat) ^ 4 = 2 ^ 32 := by norm_num
  have hGlen : ((g.map rawG1).flatten).length = 2 ^ k * 64 := by
    rw [flatten_rawG1_length, hg]
  have hLlen : ((lag.map rawG1).flatten).length = 2 ^ k * 64 := by
    rw [flatten_rawG1_length, hlag]
  unfold params_kzg
  rw [params_kzg_buf_eq]
  unfold read_custom
  rw [List.take_left' (natToLE_length 4 k), List.drop_left' (natToLE_length 4 k),
    leBytesToNat_natToLE 4 k (by omega)]
  rw [if_pos (by simp [natToLE_length])]
  rw [if_pos (by
    simp only [List.length_append, hGlen, hLlen, rawG2_length]
    omega)]
  unfold readParams
  rw [List.take_left' hGlen, List.drop_left' hGlen,
    List.take_left' hLlen, List.drop_left' hLlen,
    List.take_left' (rawG2_length g2), List.drop_left' (rawG2_length g2),
    List.take_of_length_le (le_of_eq (rawG2_length s_g2))]
  rw [chunks_map_raw_roundtrip g hgr, chunks_map_raw_roundtrip lag hlagr,
    readG2raw_rawG2 g2 hg2, readG2raw_rawG2 s_g2 hs]

/-- C5 (witness): the round trip at `k = 0` with the generators. -/
theorem params_kzg_roundtrip_witness :
    params_kzg 0 [g1gen] [g1gen] g2gen g2gen = some ⟨0, [g1gen], [g1gen], g2gen, g2gen⟩ :=
  params_kzg_roundtrip 0 [g1gen] [g1gen] g2gen g2gen (by norm_num) rfl rfl
    (by intro p hp; simp at hp; subst hp; constructor <;> decide)
    (by intro p hp; simp at hp; subst hp; constructor <;> decide)
    (by refine ⟨?_, ?_, ?_, ?_⟩ <;> decide)
    (by refine ⟨?_, ?_, ?_, ?_⟩ <;> decide)

theorem mapMopt_spec {α β : Type} (f : α → Option β) (dA : α) (dB : β) :
    ∀ l : List α, ∀ bs : List β, mapMopt f l = some bs →
      bs.length = l.length ∧
      ∀ i, i < l.length → f (l.getD i dA) = some (bs.getD i dB) := by
  intro l
  induction l with
  | nil =>
    intro bs h
    simp only [mapMopt, Option.some.injEq] at h
    subst h
    simp
  | cons a t ih =>
    intro bs h
    simp only [mapMopt] at h
    cases hfa : f a with
    | none => rw [hfa] at h; simp at h
    | some b =>
      rw [hfa] at h
      cases hrest : mapMopt f t with
      | none => rw [hrest] at h; simp at h
      | some bs' =>
        rw [hrest] at h
        simp only [Option.some.injEq] at h
        subst h
        obtain ⟨hlen, hidx⟩ := ih bs' hrest
        constructor
        · simp [hlen]
        · intro i hi
          cases i with
          | zero => simpa using hfa
          | succ i =>
            simp only [List.getD_cons_succ]
            exact hidx i (by simp at hi; omega)

theorem mapMopt_none {α β : Type} (f : α → Option β) :
    ∀ l : List α, ∀ a ∈ l, f a = none → mapMopt f l = none := by
  intro l
  induction l with
  | nil => intro a ha _; simp at ha
  | cons x t ih =>
    intro a ha hfa
    simp only [mapMopt]
    rcases List.mem_cons.mp ha with h1 | h2
    · subst h1
      rw [hfa]
    · rw [ih a h2 hfa]
      cases f x <;> rfl

/-- C7: whenever the monomial-basis sequence is built successfully, its head
is the base-group generator and entry `i + 1` is the decode of the `i`-th
64-byte block of the fetched buffer, in buffer order.  (This sequence is
what `constuct_halo2_params_from_aztec_crs` passes to the basis transform
and the assembler.) -/
theorem monomialSeq_spec (g1d : List Nat) (gs : List G1)
    (h : monomialSeq g1d = some gs) :
    gs.head? = some g1gen ∧
    gs.length = (chunks 64 g1d).length + 1 ∧
    ∀ i, i < (chunks 64 g1d).length →
      to_g1_point ((chunks 64 g1d).getD i []) = some (gs.getD (i + 1) g1gen) := by
  unfold monomialSeq at h
  cases hm : mapMopt to_g1_point (chunks 64 g1d) with
  | none => rw [hm] at h; simp at h
  | some pts =>
    rw [hm] at h
    simp only [Option.some.injEq] at h
    subst h
    obtain ⟨hlen, hidx⟩ := mapMopt_spec to_g1_point [] g1gen (chunks 64 g1d) pts hm
    refine ⟨rfl, by simp [hlen], ?_⟩
    intro i hi
    simpa using hidx i hi

/-- C7 (witness): for a one-block buffer encoding the point `(1, 2)`, the
sequence is `[generator, (1, 2)]`. -/
theorem monomialSeq_spec_witness :
    ([g1gen, ⟨1, 2⟩] : List G1).head? = some g1gen ∧
    ([g1gen, ⟨1, 2⟩] : List G1).length = (chunks 64 (ceremonyEncodeG1 1 2)).length + 1 ∧
    ∀ i, i < (chunks 64 (ceremonyEncodeG1 1 2)).length →
      to_g1_point ((chunks 64 (ceremonyEncodeG1 1 2)).getD i []) =
        some (([g1gen, ⟨1, 2⟩] : List G1).getD (i + 1) g1gen) :=
  monomialSeq_spec (ceremonyEncodeG1 1 2) [g1gen, ⟨1, 2⟩] (by decide)

/-- A 64-byte base-group block that fails to decode: every byte `0xFF`, so
the x-half reads `2^256 - 1`, which exceeds the field modulus. -/
def badBlock : List Nat := List.replicate 64 255

/-- C1 (amended): when the provider returns a base-group block that fails to
decode (coordinate not below the modulus, or off-curve), the pipeline does
not return an error value: it panics (the decoder unwraps the failed parse),
and no parameter object is produced. -/
theorem decode_failure_panics (num : Nat)
    (fetch : Nat → Except CrsError (List Nat × List Nat))
    (g2l : List G1 → Nat → List G1) (g1d g2d : List Nat)
    (hfetch : fetch (pow2ceil num) = Except.ok (g1d, g2d))
    (hbad : ∃ c ∈ chunks 64 g1d, to_g1_point c = none) :
    constuct_halo2_params_from_aztec_crs num fetch g2l = Outcome.panic := by
  obtain ⟨c, hc, hcnone⟩ := hbad
  have hseq : monomialSeq g1d = none := by
    unfold monomialSeq
    rw [mapMopt_none to_g1_point (chunks 64 g1d) c hc hcnone]
  simp only [constuct_halo2_params_from_aztec_crs, hfetch, hseq]
  exact ite_self _

/-- C1 (witness): the panic at a concrete all-`0xFF` block. -/
theorem decode_failure_panics_witness :
    constuct_halo2_params_from_aztec_crs 2
        (fun _ => Except.ok (badBlock, [])) (fun g _ => g) = Outcome.panic :=
  decode_failure_panics 2 (fun _ => Except.ok (badBlock, [])) (fun g _ => g)
    badBlock [] rfl ⟨badBlock, by decide, by decide⟩

/-- C1 (counterexample): on an undecodable block the pipeline's result is a
panic, not the `PointDecodingError` return the claim states. -/
theorem decode_failure_cex :
    constuct_halo2_params_from_aztec_crs 2
        (fun _ => Except.ok (List.replicate 64 255, [])) (fun g _ => g) = Outcome.panic ∧
    constuct_halo2_params_from_aztec_crs 2
        (fun _ => Except.ok (List.replicate 64 255, [])) (fun g _ => g) ≠
      Outcome.err CrsError.PointDecodingError := by
  have h1 : constuct_halo2_params_from_aztec_crs 2
      (fun _ => Except.ok (List.replicate 64 255, [])) (fun g _ => g) = Outcome.panic := by
    decide
  refine ⟨h1, ?_⟩
  rw [h1]
  intro hcontra
  exact Outcome.noConfusion hcontra

/-- C9: after the fetch, the pipeline is a deterministic function of the
fetched bytes and the requested count: two providers that agree on the
rounded count produce identical results (hence byte-identical parameter
objects on success). -/
theorem pipeline_deterministic (num : Nat)
    (fetch1 fetch2 : Nat → Except CrsError (List Nat × List Nat))
    (g2l : List G1 → Nat → List G1)
    (h : fetch1 (pow2ceil num) = fetch2 (pow2ceil num)) :
    constuct_halo2_params_from_aztec_crs num fetch1 g2l =
      constuct_halo2_params_from_aztec_crs num fetch2 g2l := by
  simp only [constuct_halo2_params_from_aztec_crs]
  rw [h]

/-- C9 (witness): two syntactically different providers agreeing at the
rounded count `1` give equal pipeline results. -/
theorem pipeline_deterministic_witness :
    constuct_halo2_params_from_aztec_crs 1 (fun _ => Except.ok ([], []))
        (fun g _ => g) =
      constuct_halo2_params_from_aztec_crs 1
        (fun m => if m = 0 then Except.error CrsError.DataFetchError
                  else Except.ok ([], []))
        (fun g _ => g) :=
  pipeline_deterministic 1 (fun _ => Except.ok ([], []))
    (fun m => if m = 0 then Except.error CrsError.DataFetchError else Except.ok ([], []))
    (fun g _ => g) rfl

end AztecCrs
